import Mathlib

/-!
Shallow embedding of `src/main.rs` (quicksort instrumented with a recursion
frame tree).  The mutable `&mut [i64]` slice is modelled as a `List Int`
threaded through the computation; `isize` indices are modelled as `Int`.
Reads `array[k as usize]` are modelled with `List.getD k.toNat 0`; under the
valid-bounds preconditions of the claims every read index is in range, so the
default is never consulted there.  The partition loop of `quick_sort` is not
obviously terminating (and in fact is not terminating on some inputs), so the
loop and the recursion are embedded with an explicit fuel parameter: `none`
means the fuel ran out.
-/

/-- Rust `array.swap(i, j)` on the list model: exchange positions `i` and `j`. -/
def listSwap (a : List Int) (i j : Nat) : List Int :=
  (a.set i (a.getD j 0)).set j (a.getD i 0)

/-- Structural-recursion engine for the forward-cursor loop (the `Nat`
argument is a step budget; `advance` below instantiates it with a budget that
provably never runs out, so the pair is an exact embedding of the loop). -/
def advanceAux : Nat → List Int → Int → Int → Int → Int
  | 0, _, _, _, i => i
  | fuel + 1, a, pivot, right, i =>
    if a.getD i.toNat 0 < pivot ∧ i < right then advanceAux fuel a pivot right (i + 1) else i

/-- The inner forward-cursor loop of `quick_sort`:
`while array[i] < pivot && i < right { i += 1 }`.  Returns the final `i`.
The loop increments `i` only while `i < right`, so it runs at most
`(right - i).toNat` steps; `advance_eq` below proves this definition
satisfies the loop's defining equation. -/
def advance (a : List Int) (pivot right i : Int) : Int :=
  advanceAux (right - i).toNat a pivot right i

/-- Structural-recursion engine for the backward-cursor loop. -/
def retreatAux : Nat → List Int → Int → Int → Int → Int
  | 0, _, _, _, j => j
  | fuel + 1, a, pivot, left, j =>
    if a.getD j.toNat 0 > pivot ∧ j > left then retreatAux fuel a pivot left (j - 1) else j

/-- The inner backward-cursor loop of `quick_sort`:
`while array[j] > pivot && j > left { j -= 1 }`.  Returns the final `j`. -/
def retreat (a : List Int) (pivot left j : Int) : Int :=
  retreatAux (j - left).toNat a pivot left j

/-- The outer partition loop of `quick_sort`:
`while i < j { advance; retreat; if i < j { swap } }`, with fuel counting the
outer iterations.  Returns the array and the final `i` when the loop exits. -/
def ploop : Nat → List Int → Int → Int → Int → Int → Int → Option (List Int × Int)
  | 0, _, _, _, _, _, _ => none
  | fuel + 1, a, pivot, left, right, i, j =>
    if i < j then
      if advance a pivot right i < retreat a pivot left j then
        ploop fuel
          (listSwap a (advance a pivot right i).toNat (retreat a pivot left j).toNat)
          pivot left right (advance a pivot right i) (retreat a pivot left j)
      else some (a, advance a pivot right i)
    else some (a, i)

/-- The `Frame` node type: `leaf` is a frame with `full == None`, `node`
carries the `FullFrame` payload (`result` snapshot, `pivot`, two children). -/
inductive Frame where
  | leaf (left right : Int)
  | node (left right : Int) (result : List Int) (pivot : Int) (c0 c1 : Frame)
deriving DecidableEq

/-- Rust `Frame::count`: `1 + (children counts, or 0 when there are none)`. -/
def Frame.count : Frame → Nat
  | .leaf _ _ => 1
  | .node _ _ _ _ c0 c1 => 1 + (c0.count + c1.count)

/-- Rust `Frame::max_depth`: increments `depth` on entry, takes the max over the
children when the payload is present, else returns the incremented depth. -/
def Frame.max_depth : Frame → Nat → Nat
  | .leaf _ _, depth => depth + 1
  | .node _ _ _ _ c0 c1, depth => max (c0.max_depth (depth + 1)) (c1.max_depth (depth + 1))

/-- The `left` field of a frame. -/
def Frame.left : Frame → Int
  | .leaf l _ => l
  | .node l _ _ _ _ _ => l

/-- The `right` field of a frame. -/
def Frame.right : Frame → Int
  | .leaf _ r => r
  | .node _ r _ _ _ _ => r

/-- Whether the frame carries a payload (`full.is_some()`). -/
def Frame.isFull : Frame → Bool
  | .leaf _ _ => false
  | .node _ _ _ _ _ _ => true

/-- A boolean predicate holds at every frame of a tree. -/
def Frame.allFrames (p : Frame → Bool) : Frame → Bool
  | .leaf l r => p (.leaf l r)
  | .node l r res piv c0 c1 =>
      p (.node l r res piv c0 c1) && (c0.allFrames p && c1.allFrames p)

/-- The function `quick_sort(array, left, right)` from `src/main.rs`, with fuel.  Returns
the mutated array together with the constructed frame, or `none` when the
fuel runs out (in particular when the partition loop does not exit). -/
def quick_sort : Nat → List Int → Int → Int → Option (List Int × Frame)
  | 0, _, _, _ => none
  | fuel + 1, a, left, right =>
    if right ≤ left then some (a, Frame.leaf left right)
    else
      (ploop (fuel + 1) a (a.getD right.toNat 0) left right left (right - 1)).bind fun p =>
        (quick_sort fuel (listSwap p.1 p.2.toNat right.toNat) left (p.2 - 1)).bind fun q =>
          (quick_sort fuel q.1 (p.2 + 1) right).bind fun w =>
            some (w.1, Frame.node left right (listSwap p.1 p.2.toNat right.toNat) p.2 q.2 w.2)

/-- Modelled from the spec: the "reference recursive counter" of §8 used to
independently count the recursive invocations of the build (one per call,
counting the top-level call).  It mirrors `quick_sort` exactly but returns
the number of invocations instead of the frame. -/
def quick_sort_invocations : Nat → List Int → Int → Int → Option (List Int × Nat)
  | 0, _, _, _ => none
  | fuel + 1, a, left, right =>
    if right ≤ left then some (a, 1)
    else
      (ploop (fuel + 1) a (a.getD right.toNat 0) left right left (right - 1)).bind fun p =>
        (quick_sort_invocations fuel (listSwap p.1 p.2.toNat right.toNat) left (p.2 - 1)).bind fun q =>
          (quick_sort_invocations fuel q.1 (p.2 + 1) right).bind fun w =>
            some (w.1, 1 + (q.2 + w.2))

/-- The sub-range `[l, r]` of `a` is non-decreasing (adjacent pairs inside the
range are ordered). -/
def sortedRange (a : List Int) (l r : Int) : Bool :=
  (List.range a.length).all fun k =>
    if l ≤ (k : Int) ∧ (k : Int) < r then decide (a.getD k 0 ≤ a.getD (k + 1) 0) else true

/-- The whole list is strictly ascending. -/
def strictAsc (a : List Int) : Bool :=
  (List.range a.length).all fun k =>
    if k + 1 < a.length then decide (a.getD k 0 < a.getD (k + 1) 0) else true

/-- Per-frame leaf criterion: the payload is absent exactly when
`right <= left`. -/
def leafCriterion (f : Frame) : Bool :=
  (!f.isFull) == decide (f.right ≤ f.left)

/-- Per-frame partition property: in the snapshot, values at indices in
`[left, pivot-1]` are `≤` the value at `pivot`, and values at indices in
`[pivot+1, right]` are `≥` it.  True at leaves. -/
def framePartitionOk : Frame → Bool
  | .leaf _ _ => true
  | .node l r res piv _ _ =>
      (List.range res.length).all fun k =>
        (if l ≤ (k : Int) ∧ (k : Int) < piv then
          decide (res.getD k 0 ≤ res.getD piv.toNat 0) else true)
        && (if piv < (k : Int) ∧ (k : Int) ≤ r then
          decide (res.getD piv.toNat 0 ≤ res.getD k 0) else true)

/-- Per-frame bounds property: for a payload-bearing frame at `[l, r]` with
pivot `p`: `l ≤ p ≤ r` and the children's recorded bounds are exactly
`[l, p-1]` and `[p+1, r]`.  True at leaves. -/
def frameBoundsOk : Frame → Bool
  | .leaf _ _ => true
  | .node l r _ piv c0 c1 =>
      decide (l ≤ piv) && decide (piv ≤ r)
      && (c0.left == l) && (c0.right == piv - 1)
      && (c1.left == piv + 1) && (c1.right == r)

/-- The forward-cursor loop satisfies its defining equation: the fuel
`(right - i).toNat` used by `advance` never runs out before the loop exits. -/
theorem advance_eq (a : List Int) (pivot right i : Int) :
    advance a pivot right i =
      if a.getD i.toNat 0 < pivot ∧ i < right then advance a pivot right (i + 1) else i := by
  unfold advance
  rcases h : (right - i).toNat with _ | n
  · have hni : ¬ (a.getD i.toNat 0 < pivot ∧ i < right) := by
      intro hc
      exact absurd hc.2 (by omega)
    simp only [advanceAux]
    rw [if_neg hni]
  · have hn : (right - (i + 1)).toNat = n := by omega
    rw [hn]
    simp only [advanceAux]

/-- The backward-cursor loop satisfies its defining equation. -/
theorem retreat_eq (a : List Int) (pivot left j : Int) :
    retreat a pivot left j =
      if a.getD j.toNat 0 > pivot ∧ j > left then retreat a pivot left (j - 1) else j := by
  unfold retreat
  rcases h : (j - left).toNat with _ | n
  · have hnj : ¬ (a.getD j.toNat 0 > pivot ∧ j > left) := by
      intro hc
      exact absurd hc.2 (by omega)
    simp only [retreatAux]
    rw [if_neg hnj]
  · have hn : (j - 1 - left).toNat = n := by omega
    rw [hn]
    simp only [retreatAux]

theorem advanceAux_ge : ∀ (fuel : Nat) (a : List Int) (pivot right i : Int),
    i ≤ advanceAux fuel a pivot right i := by
  intro fuel
  induction fuel with
  | zero => intro a pivot right i; simp [advanceAux]
  | succ n ih =>
      intro a pivot right i
      simp only [advanceAux]
      split
      · exact le_trans (by omega) (ih a pivot right (i + 1))
      · exact le_refl i

theorem advanceAux_le : ∀ (fuel : Nat) (a : List Int) (pivot right i : Int),
    i ≤ right → advanceAux fuel a pivot right i ≤ right := by
  intro fuel
  induction fuel with
  | zero => intro a pivot right i h; simpa [advanceAux] using h
  | succ n ih =>
      intro a pivot right i h
      simp only [advanceAux]
      split
      · rename_i hc
        exact ih a pivot right (i + 1) (by omega)
      · exact h

theorem advance_ge (a : List Int) (pivot right i : Int) : i ≤ advance a pivot right i :=
  advanceAux_ge _ a pivot right i

theorem advance_le (a : List Int) (pivot right i : Int) (h : i ≤ right) :
    advance a pivot right i ≤ right :=
  advanceAux_le _ a pivot right i h

theorem retreatAux_le : ∀ (fuel : Nat) (a : List Int) (pivot left j : Int),
    retreatAux fuel a pivot left j ≤ j := by
  intro fuel
  induction fuel with
  | zero => intro a pivot left j; simp [retreatAux]
  | succ n ih =>
      intro a pivot left j
      simp only [retreatAux]
      split
      · exact le_trans (ih a pivot left (j - 1)) (by omega)
      · exact le_refl j

theorem retreatAux_ge : ∀ (fuel : Nat) (a : List Int) (pivot left j : Int),
    left ≤ j → left ≤ retreatAux fuel a pivot left j := by
  intro fuel
  induction fuel with
  | zero => intro a pivot left j h; simpa [retreatAux] using h
  | succ n ih =>
      intro a pivot left j h
      simp only [retreatAux]
      split
      · rename_i hc
        exact ih a pivot left (j - 1) (by omega)
      · exact h

theorem retreat_le (a : List Int) (pivot left j : Int) : retreat a pivot left j ≤ j :=
  retreatAux_le _ a pivot left j

theorem retreat_ge (a : List Int) (pivot left j : Int) (h : left ≤ j) :
    left ≤ retreat a pivot left j :=
  retreatAux_ge _ a pivot left j h

theorem ploop_mono : ∀ (fuel : Nat) (a : List Int) (pivot l r i j : Int) (x : List Int × Int),
    ploop fuel a pivot l r i j = some x → ploop (fuel + 1) a pivot l r i j = some x := by
  intro fuel
  induction fuel with
  | zero =>
      intro a pivot l r i j x h
      exact absurd h (by simp [ploop])
  | succ n ih =>
      intro a pivot l r i j x h
      rw [ploop] at h ⊢
      by_cases hij : i < j
      · rw [if_pos hij] at h ⊢
        by_cases hadv : advance a pivot r i < retreat a pivot l j
        · rw [if_pos hadv] at h ⊢
          exact ih _ _ _ _ _ _ _ h
        · rw [if_neg hadv] at h ⊢
          exact h
      · rw [if_neg hij] at h ⊢
        exact h

theorem quick_sort_mono : ∀ (fuel : Nat) (a : List Int) (l r : Int) (x : List Int × Frame),
    quick_sort fuel a l r = some x → quick_sort (fuel + 1) a l r = some x := by
  intro fuel
  induction fuel with
  | zero =>
      intro a l r x h
      exact absurd h (by simp [quick_sort])
  | succ n ih =>
      intro a l r x h
      rw [quick_sort] at h ⊢
      by_cases hrl : r ≤ l
      · rw [if_pos hrl] at h ⊢
        exact h
      · rw [if_neg hrl] at h ⊢
        rcases hp : ploop (n + 1) a (a.getD r.toNat 0) l r l (r - 1) with _ | p
        · rw [hp] at h
          exact absurd h (by simp)
        · rw [hp] at h
          rw [ploop_mono _ _ _ _ _ _ _ _ hp]
          simp only [Option.some_bind] at h ⊢
          rcases hq : quick_sort n (listSwap p.1 p.2.toNat r.toNat) l (p.2 - 1) with _ | q
          · rw [hq] at h
            exact absurd h (by simp)
          · rw [ih _ _ _ _ hq]
            rw [hq] at h
            simp only [Option.some_bind] at h ⊢
            rcases hw : quick_sort n q.1 (p.2 + 1) r with _ | w
            · rw [hw] at h
              exact absurd h (by simp)
            · rw [ih _ _ _ _ hw]
              rw [hw] at h
              simpa using h

theorem quick_sort_fuel_le {fuel fuel2 : Nat} (hle : fuel ≤ fuel2) (a : List Int) (l r : Int)
    (x : List Int × Frame) (h : quick_sort fuel a l r = some x) :
    quick_sort fuel2 a l r = some x := by
  induction fuel2 with
  | zero =>
      have : fuel = 0 := by omega
      subst this
      exact h
  | succ n ih =>
      by_cases hend : fuel = n + 1
      · subst hend
        exact h
      · exact quick_sort_mono n a l r x (ih (by omega))

/-- Inversion of a successful `quick_sort` call on a non-trivial range: it
exposes the partition-loop result and the two recursive calls. -/
theorem quick_sort_node_inv {fuel : Nat} {a : List Int} {l r : Int} {a2 : List Int} {f : Frame}
    (h : quick_sort (fuel + 1) a l r = some (a2, f)) (hrl : ¬ (r ≤ l)) :
    ∃ p q w, ploop (fuel + 1) a (a.getD r.toNat 0) l r l (r - 1) = some p ∧
      quick_sort fuel (listSwap p.1 p.2.toNat r.toNat) l (p.2 - 1) = some q ∧
      quick_sort fuel q.1 (p.2 + 1) r = some w ∧
      a2 = w.1 ∧ f = Frame.node l r (listSwap p.1 p.2.toNat r.toNat) p.2 q.2 w.2 := by
  rw [quick_sort, if_neg hrl] at h
  rcases hp : ploop (fuel + 1) a (a.getD r.toNat 0) l r l (r - 1) with _ | p
  · rw [hp] at h
    exact absurd h (by simp)
  · rw [hp] at h
    simp only [Option.some_bind] at h
    rcases hq : quick_sort fuel (listSwap p.1 p.2.toNat r.toNat) l (p.2 - 1) with _ | q
    · rw [hq] at h
      exact absurd h (by simp)
    · rw [hq] at h
      simp only [Option.some_bind] at h
      rcases hw : quick_sort fuel q.1 (p.2 + 1) r with _ | w
      · rw [hw] at h
        exact absurd h (by simp)
      · rw [hw] at h
        simp only [Option.some_bind, Option.some.injEq, Prod.mk.injEq] at h
        exact ⟨p, q, w, rfl, hq, hw, h.1.symm, h.2.symm⟩

/-- Every frame built by `quick_sort` records exactly the bounds it was
called with. -/
theorem quick_sort_frame_bounds : ∀ (fuel : Nat) (a : List Int) (l r : Int)
    (a2 : List Int) (f : Frame),
    quick_sort fuel a l r = some (a2, f) → f.left = l ∧ f.right = r := by
  intro fuel
  cases fuel with
  | zero =>
      intro a l r a2 f h
      exact absurd h (by simp [quick_sort])
  | succ n =>
      intro a l r a2 f h
      by_cases hrl : r ≤ l
      · rw [quick_sort, if_pos hrl] at h
        simp only [Option.some.injEq, Prod.mk.injEq] at h
        rw [← h.2]
        exact ⟨rfl, rfl⟩
      · obtain ⟨p, q, w, hp, hq, hw, ha, hf⟩ := quick_sort_node_inv h hrl
        rw [hf]
        exact ⟨rfl, rfl⟩

theorem ploop_i_range : ∀ (fuel : Nat) (a : List Int) (pivot l r i j : Int)
    (a2 : List Int) (i2 : Int),
    ploop fuel a pivot l r i j = some (a2, i2) → l ≤ i → i ≤ r → l ≤ i2 ∧ i2 ≤ r := by
  intro fuel
  induction fuel with
  | zero =>
      intro a pivot l r i j a2 i2 h
      exact absurd h (by simp [ploop])
  | succ n ih =>
      intro a pivot l r i j a2 i2 h hli hir
      rw [ploop] at h
      by_cases hij : i < j
      · rw [if_pos hij] at h
        by_cases hadv : advance a pivot r i < retreat a pivot l j
        · rw [if_pos hadv] at h
          exact ih _ _ _ _ _ _ _ _ h (le_trans hli (advance_ge a pivot r i))
            (advance_le a pivot r i hir)
        · rw [if_neg hadv] at h
          simp only [Option.some.injEq, Prod.mk.injEq] at h
          rw [← h.2]
          exact ⟨le_trans hli (advance_ge a pivot r i), advance_le a pivot r i hir⟩
      · rw [if_neg hij] at h
        simp only [Option.some.injEq, Prod.mk.injEq] at h
        rw [← h.2]
        exact ⟨hli, hir⟩

/-- On `[2, 2, 2]` with `pivot = 2`, the partition loop reproduces its own
state every iteration (both cursors stall on values equal to the pivot and
the swap exchanges equal values), so it never exits: every fuel is exhausted. -/
theorem ploop_all_twos_diverges : ∀ fuel : Nat, ploop fuel [2, 2, 2] 2 0 2 0 1 = none := by
  intro fuel
  induction fuel with
  | zero => rfl
  | succ n ih => exact ih

/-- C2.  The claim says `quick_sort` terminates for every array under the
precondition `0 ≤ left ≤ right < length`; the code does not: on the array
`[2, 2, 2]` with bounds `(0, 2)` the partition loop never exits, so the call
runs out of any amount of fuel. -/
theorem c2_quick_sort_diverges_on_duplicates :
    ∀ fuel : Nat, quick_sort fuel [2, 2, 2] 0 2 = none := by
  intro fuel
  cases fuel with
  | zero => rfl
  | succ n =>
      have hploop :
          ploop (n + 1) [2, 2, 2] (([2, 2, 2] : List Int).getD (2 : Int).toNat 0) 0 2 0
            ((2 : Int) - 1) = none :=
        ploop_all_twos_diverges (n + 1)
      rw [quick_sort, if_neg (by decide : ¬ (2 : Int) ≤ 0), hploop]
      rfl

/-- C1.  The claim says the sub-range `[left, right]` is non-decreasing after
every completed `quick_sort` call with valid bounds; the code violates it:
on the already-sorted array `[1, 2]` with bounds `(0, 1)` the call completes
and produces `[2, 1]`, which is not non-decreasing on `[0, 1]`. -/
theorem c1_sortedness_fails_on_pair :
    quick_sort 10 [1, 2] 0 1 =
      some ([2, 1], Frame.node 0 1 [2, 1] 0 (Frame.leaf 0 (-1)) (Frame.leaf 1 1))
    ∧ sortedRange [2, 1] 0 1 = false := by
  constructor
  · rfl
  · rfl

/-- C3.  The claim says sorting an already-sorted array leaves it unchanged;
the code violates it: `[1, 2]` is non-decreasing, yet `quick_sort` with
bounds `(0, 1)` turns it into `[2, 1]`. -/
theorem c3_idempotence_fails_on_sorted_pair :
    sortedRange [1, 2] 0 1 = true
    ∧ (quick_sort 10 [1, 2] 0 1).map Prod.fst = some [2, 1]
    ∧ ([2, 1] : List Int) ≠ [1, 2] := by
  refine ⟨rfl, rfl, ?_⟩
  decide

/-- C4.  The claim says every payload-bearing frame's snapshot is partitioned
around its pivot; the code violates it: the root frame produced for `[1, 2]`
with bounds `(0, 1)` has snapshot `[2, 1]` and pivot index `0`, and the value
`1` at index `1 ∈ [pivot+1, right]` is smaller than the pivot value `2`. -/
theorem c4_partition_property_fails :
    quick_sort 10 [1, 2] 0 1 =
      some ([2, 1], Frame.node 0 1 [2, 1] 0 (Frame.leaf 0 (-1)) (Frame.leaf 1 1))
    ∧ framePartitionOk (Frame.node 0 1 [2, 1] 0 (Frame.leaf 0 (-1)) (Frame.leaf 1 1)) = false := by
  constructor
  · rfl
  · rfl

/-- C5.  Running `quick_sort` on `[3,5,2,7,8,6,1,9,3,4]` with bounds `(0, 9)`
terminates (fuel 64 suffices) and the final array is
`[1,2,3,3,4,5,6,7,8,9]`, exactly as the spec's end-to-end scenario states. -/
theorem c5_end_to_end_example :
    (quick_sort 64 [3, 5, 2, 7, 8, 6, 1, 9, 3, 4] 0 9).map Prod.fst =
      some [1, 2, 3, 3, 4, 5, 6, 7, 8, 9] := by
  rfl

/-- C7.  In every tree built by `quick_sort`, a frame carries no payload if
and only if its bounds satisfy `right ≤ left`. -/
theorem c7_leaf_criterion_holds : ∀ (fuel : Nat) (a : List Int) (l r : Int)
    (a2 : List Int) (f : Frame),
    quick_sort fuel a l r = some (a2, f) → f.allFrames leafCriterion = true := by
  intro fuel
  induction fuel with
  | zero =>
      intro a l r a2 f h
      exact absurd h (by simp [quick_sort])
  | succ n ih =>
      intro a l r a2 f h
      by_cases hrl : r ≤ l
      · rw [quick_sort, if_pos hrl] at h
        simp only [Option.some.injEq, Prod.mk.injEq] at h
        rw [← h.2]
        simp [Frame.allFrames, leafCriterion, Frame.isFull, Frame.right, Frame.left, hrl]
      · obtain ⟨p, q, w, hp, hq, hw, ha, hf⟩ := quick_sort_node_inv h hrl
        rw [hf]
        simp only [Frame.allFrames, Bool.and_eq_true]
        refine ⟨?_, ih _ _ _ _ _ hq, ih _ _ _ _ _ hw⟩
        simp [leafCriterion, Frame.isFull, Frame.right, Frame.left, hrl]

/-- Witness for C7 at a concrete run: sorting `[2, 1]` over `(0, 1)`. -/
theorem c7_witness :
    Frame.allFrames leafCriterion
      (Frame.node 0 1 [1, 2] 0 (Frame.leaf 0 (-1)) (Frame.leaf 1 1)) = true :=
  c7_leaf_criterion_holds 5 [2, 1] 0 1 [1, 2]
    (Frame.node 0 1 [1, 2] 0 (Frame.leaf 0 (-1)) (Frame.leaf 1 1)) (by rfl)

/-- C8.  In every tree built by `quick_sort`, every payload-bearing frame has
`left ≤ pivot ≤ right` and its two children's recorded bounds are exactly
`[left, pivot-1]` and `[pivot+1, right]`, in that order. -/
theorem c8_bounds_spanning_holds : ∀ (fuel : Nat) (a : List Int) (l r : Int)
    (a2 : List Int) (f : Frame),
    quick_sort fuel a l r = some (a2, f) → f.allFrames frameBoundsOk = true := by
  intro fuel
  induction fuel with
  | zero =>
      intro a l r a2 f h
      exact absurd h (by simp [quick_sort])
  | succ n ih =>
      intro a l r a2 f h
      by_cases hrl : r ≤ l
      · rw [quick_sort, if_pos hrl] at h
        simp only [Option.some.injEq, Prod.mk.injEq] at h
        rw [← h.2]
        simp [Frame.allFrames, frameBoundsOk]
      · obtain ⟨p, q, w, hp, hq, hw, ha, hf⟩ := quick_sort_node_inv h hrl
        have hpr := ploop_i_range (n + 1) a (a.getD r.toNat 0) l r l (r - 1) p.1 p.2 hp
          (le_refl l) (by omega)
        have hb0 := quick_sort_frame_bounds n _ _ _ _ _ hq
        have hb1 := quick_sort_frame_bounds n _ _ _ _ _ hw
        rw [hf]
        simp only [Frame.allFrames, Bool.and_eq_true]
        refine ⟨?_, ih _ _ _ _ _ hq, ih _ _ _ _ _ hw⟩
        simp [frameBoundsOk, hb0.1, hb0.2, hb1.1, hb1.2, hpr.1, hpr.2]

/-- Witness for C8 at a concrete run: sorting `[2, 1]` over `(0, 1)`. -/
theorem c8_witness :
    Frame.allFrames frameBoundsOk
      (Frame.node 0 1 [1, 2] 0 (Frame.leaf 0 (-1)) (Frame.leaf 1 1)) = true :=
  c8_bounds_spanning_holds 5 [2, 1] 0 1 [1, 2]
    (Frame.node 0 1 [1, 2] 0 (Frame.leaf 0 (-1)) (Frame.leaf 1 1)) (by rfl)

/-- C9.  `count` of the frame returned by `quick_sort` is exactly the number
of recursive invocations made during the same build, as computed by the
spec-modelled reference counter `quick_sort_invocations` (which also agrees
on the final array). -/
theorem c9_count_equals_invocations : ∀ (fuel : Nat) (a : List Int) (l r : Int)
    (a2 : List Int) (f : Frame),
    quick_sort fuel a l r = some (a2, f) →
    quick_sort_invocations fuel a l r = some (a2, f.count) := by
  intro fuel
  induction fuel with
  | zero =>
      intro a l r a2 f h
      exact absurd h (by simp [quick_sort])
  | succ n ih =>
      intro a l r a2 f h
      by_cases hrl : r ≤ l
      · rw [quick_sort, if_pos hrl] at h
        simp only [Option.some.injEq, Prod.mk.injEq] at h
        rw [quick_sort_invocations, if_pos hrl, ← h.1, ← h.2]
        rfl
      · obtain ⟨p, q, w, hp, hq, hw, ha, hf⟩ := quick_sort_node_inv h hrl
        rw [quick_sort_invocations, if_neg hrl, hp]
        simp only [Option.some_bind]
        rw [ih _ _ _ _ _ hq]
        simp only [Option.some_bind]
        rw [ih _ _ _ _ _ hw]
        simp only [Option.some_bind]
        rw [ha, hf]
        rfl

/-- Witness for C9 at a concrete run: sorting `[2, 1]` over `(0, 1)`. -/
theorem c9_witness :
    quick_sort_invocations 5 [2, 1] 0 1 =
      some ([1, 2],
        Frame.count (Frame.node 0 1 [1, 2] 0 (Frame.leaf 0 (-1)) (Frame.leaf 1 1))) :=
  c9_count_equals_invocations 5 [2, 1] 0 1 [1, 2]
    (Frame.node 0 1 [1, 2] 0 (Frame.leaf 0 (-1)) (Frame.leaf 1 1)) (by rfl)

theorem listSwap_length (a : List Int) (i j : Nat) : (listSwap a i j).length = a.length := by
  simp [listSwap]

theorem listSwap_getD_ne (a : List Int) (i j k : Nat) (hki : k ≠ i) (hkj : k ≠ j) :
    (listSwap a i j).getD k 0 = a.getD k 0 := by
  unfold listSwap
  rw [List.getD_eq_getElem?_getD, List.getElem?_set_ne (Ne.symm hkj),
    List.getElem?_set_ne (Ne.symm hki), ← List.getD_eq_getElem?_getD]

theorem getD_cons_set_perm : ∀ (xs : List Int) (m : Nat) (x : Int), m < xs.length →
    (xs.getD m 0 :: xs.set m x).Perm (x :: xs) := by
  intro xs
  induction xs with
  | nil =>
      intro m x h
      simp at h
  | cons y ys ih =>
      intro m x h
      cases m with
      | zero =>
          simp only [List.getD_cons_zero, List.set_cons_zero]
          exact List.Perm.swap x y ys
      | succ m =>
          simp only [List.getD_cons_succ, List.set_cons_succ]
          exact ((List.Perm.swap y (ys.getD m 0) (ys.set m x)).trans
            (((ih m x (by simpa using h)).cons y).trans (List.Perm.swap x y ys)))

theorem listSwap_perm : ∀ (a : List Int) (i j : Nat), i < a.length → j < a.length →
    (listSwap a i j).Perm a := by
  intro a
  induction a with
  | nil =>
      intro i j hi hj
      simp at hi
  | cons x xs ih =>
      intro i j hi hj
      cases i with
      | zero =>
          cases j with
          | zero =>
              simp only [listSwap, List.getD_cons_zero, List.set_cons_zero]
              exact List.Perm.refl _
          | succ m =>
              simp only [listSwap, List.getD_cons_succ, List.getD_cons_zero,
                List.set_cons_zero, List.set_cons_succ]
              exact getD_cons_set_perm xs m x (by simpa using hj)
      | succ m =>
          cases j with
          | zero =>
              simp only [listSwap, List.getD_cons_succ, List.getD_cons_zero,
                List.set_cons_succ, List.set_cons_zero]
              exact getD_cons_set_perm xs m x (by simpa using hi)
          | succ k =>
              simp only [listSwap, List.getD_cons_succ, List.set_cons_succ]
              exact ((ih m k (by simpa using hi) (by simpa using hj)).cons x)

/-- The partition loop only swaps positions inside `[l, r]`: its result is a
permutation of its input and agrees with it at every index outside `[l, r]`. -/
theorem ploop_perm : ∀ (fuel : Nat) (a : List Int) (pivot l r i j : Int)
    (a2 : List Int) (i2 : Int),
    ploop fuel a pivot l r i j = some (a2, i2) →
    0 ≤ l → r < (a.length : Int) → l ≤ i → i ≤ r → l ≤ j → j ≤ r - 1 →
    a2.Perm a ∧ ∀ k : Nat, ((k : Int) < l ∨ r < (k : Int)) → a2.getD k 0 = a.getD k 0 := by
  intro fuel
  induction fuel with
  | zero =>
      intro a pivot l r i j a2 i2 h
      exact absurd h (by simp [ploop])
  | succ n ih =>
      intro a pivot l r i j a2 i2 h hl hr hli hir hlj hjr
      rw [ploop] at h
      by_cases hij : i < j
      · rw [if_pos hij] at h
        by_cases hadv : advance a pivot r i < retreat a pivot l j
        · rw [if_pos hadv] at h
          have hia : l ≤ advance a pivot r i := le_trans hli (advance_ge a pivot r i)
          have hib : advance a pivot r i ≤ r := advance_le a pivot r i hir
          have hja : l ≤ retreat a pivot l j := retreat_ge a pivot l j hlj
          have hjb : retreat a pivot l j ≤ j := retreat_le a pivot l j
          have hilen : (advance a pivot r i).toNat < a.length := by omega
          have hjlen : (retreat a pivot l j).toNat < a.length := by omega
          have hswap :=
            listSwap_perm a (advance a pivot r i).toNat (retreat a pivot l j).toNat hilen hjlen
          have hlen :
              (listSwap a (advance a pivot r i).toNat (retreat a pivot l j).toNat).length
                = a.length := listSwap_length a _ _
          obtain ⟨hp2, hout2⟩ := ih _ pivot l r _ _ _ _ h hl
            (by rw [hlen]; exact hr) hia hib hja (le_trans hjb hjr)
          refine ⟨hp2.trans hswap, ?_⟩
          intro k hk
          rw [hout2 k hk]
          exact listSwap_getD_ne a _ _ k (by omega) (by omega)
        · rw [if_neg hadv] at h
          simp only [Option.some.injEq, Prod.mk.injEq] at h
          rw [← h.1]
          exact ⟨List.Perm.refl a, fun k hk => rfl⟩
      · rw [if_neg hij] at h
        simp only [Option.some.injEq, Prod.mk.injEq] at h
        rw [← h.1]
        exact ⟨List.Perm.refl a, fun k hk => rfl⟩

/-- C10.  Under valid bounds (`0 ≤ left`, `right < length`), the array after
`quick_sort` is a permutation of the input array, and every position outside
`[left, right]` is unchanged. -/
theorem c10_permutation_and_frame_effect : ∀ (fuel : Nat) (a : List Int) (l r : Int)
    (a2 : List Int) (f : Frame),
    quick_sort fuel a l r = some (a2, f) → 0 ≤ l → r < (a.length : Int) →
    a2.Perm a ∧ ∀ k : Nat, ((k : Int) < l ∨ r < (k : Int)) → a2.getD k 0 = a.getD k 0 := by
  intro fuel
  induction fuel with
  | zero =>
      intro a l r a2 f h
      exact absurd h (by simp [quick_sort])
  | succ n ih =>
      intro a l r a2 f h hl hr
      by_cases hrl : r ≤ l
      · rw [quick_sort, if_pos hrl] at h
        simp only [Option.some.injEq, Prod.mk.injEq] at h
        rw [← h.1]
        exact ⟨List.Perm.refl a, fun k hk => rfl⟩
      · obtain ⟨p, q, w, hp, hq, hw, ha, hf⟩ := quick_sort_node_inv h hrl
        obtain ⟨hp1, hp2⟩ := ploop_i_range (n + 1) a (a.getD r.toNat 0) l r l (r - 1) p.1 p.2 hp
          (le_refl l) (by omega)
        obtain ⟨hperm1, hout1⟩ := ploop_perm (n + 1) a (a.getD r.toNat 0) l r l (r - 1) p.1 p.2
          hp hl hr (le_refl l) (by omega) (by omega) (by omega)
        have hlen1 : p.1.length = a.length := hperm1.length_eq
        have hswlen : (listSwap p.1 p.2.toNat r.toNat).length = a.length := by
          rw [listSwap_length, hlen1]
        have hswap : (listSwap p.1 p.2.toNat r.toNat).Perm p.1 :=
          listSwap_perm p.1 p.2.toNat r.toNat (by omega) (by omega)
        obtain ⟨hperm2, hout2⟩ := ih _ l (p.2 - 1) q.1 q.2 hq hl
          (by rw [hswlen]; omega)
        have hlen2 : q.1.length = a.length := by rw [hperm2.length_eq, hswlen]
        obtain ⟨hperm3, hout3⟩ := ih q.1 (p.2 + 1) r w.1 w.2 hw (by omega)
          (by rw [hlen2]; exact hr)
        rw [ha]
        constructor
        · exact hperm3.trans (hperm2.trans (hswap.trans hperm1))
        · intro k hk
          rw [hout3 k (by omega), hout2 k (by omega),
            listSwap_getD_ne p.1 p.2.toNat r.toNat k (by omega) (by omega), hout1 k hk]

/-- Witness for C10 at a concrete run: sorting `[2, 1]` over `(0, 1)`. -/
theorem c10_witness :
    ([1, 2] : List Int).Perm [2, 1]
    ∧ ∀ k : Nat, ((k : Int) < 0 ∨ 1 < (k : Int)) →
        ([1, 2] : List Int).getD k 0 = ([2, 1] : List Int).getD k 0 :=
  c10_permutation_and_frame_effect 5 [2, 1] 0 1 [1, 2]
    (Frame.node 0 1 [1, 2] 0 (Frame.leaf 0 (-1)) (Frame.leaf 1 1)) (by rfl)
    (by decide) (by decide)

theorem advanceAux_reaches : ∀ (fuel : Nat) (a : List Int) (pivot right i : Int),
    (right - i).toNat ≤ fuel → i ≤ right →
    (∀ k : Int, i ≤ k → k < right → a.getD k.toNat 0 < pivot) →
    advanceAux fuel a pivot right i = right := by
  intro fuel
  induction fuel with
  | zero =>
      intro a pivot right i hf hir hall
      have hii : i = right := by omega
      simp [advanceAux, hii]
  | succ n ih =>
      intro a pivot right i hf hir hall
      by_cases hi : i < right
      · have hcond : a.getD i.toNat 0 < pivot ∧ i < right := ⟨hall i (le_refl i) hi, hi⟩
        simp only [advanceAux]
        rw [if_pos hcond]
        exact ih a pivot right (i + 1) (by omega) (by omega)
          (fun k hk1 hk2 => hall k (by omega) hk2)
      · have hii : i = right := by omega
        subst hii
        simp only [advanceAux]
        rw [if_neg (by intro hc; exact absurd hc.2 (by omega))]

/-- When every value strictly left of `right` (from `i` on) is below the
pivot, the forward cursor runs all the way to `right`. -/
theorem advance_reaches (a : List Int) (pivot right i : Int) (hir : i ≤ right)
    (hall : ∀ k : Int, i ≤ k → k < right → a.getD k.toNat 0 < pivot) :
    advance a pivot right i = right :=
  advanceAux_reaches _ a pivot right i (le_refl _) hir hall

/-- When the value at `j` is not above the pivot, the backward cursor does
not move. -/
theorem retreat_stall (a : List Int) (pivot left j : Int)
    (h : ¬ a.getD j.toNat 0 > pivot) : retreat a pivot left j = j := by
  unfold retreat
  cases hn : (j - left).toNat with
  | zero => rfl
  | succ n =>
      simp only [retreatAux]
      rw [if_neg (by intro hc; exact h hc.1)]

theorem set_getD_self : ∀ (a : List Int) (i : Nat), i < a.length →
    a.set i (a.getD i 0) = a := by
  intro a
  induction a with
  | nil =>
      intro i h
      simp at h
  | cons x xs ih =>
      intro i h
      cases i with
      | zero => simp
      | succ m =>
          simp only [List.getD_cons_succ, List.set_cons_succ]
          rw [ih m (by simpa using h)]

theorem listSwap_self (a : List Int) (i : Nat) (h : i < a.length) : listSwap a i i = a := by
  unfold listSwap
  rw [List.set_set, set_getD_self a i h]

/-- Transitivity of a strictly ascending prefix. -/
theorem ascPrefix_lt (a : List Int) (r : Nat)
    (hasc : ∀ k : Nat, k < r → a.getD k 0 < a.getD (k + 1) 0) :
    ∀ u v : Nat, u < v → v ≤ r → a.getD u 0 < a.getD v 0 := by
  intro u v
  induction v with
  | zero =>
      intro huv hvr
      exact absurd huv (by omega)
  | succ m ihv =>
      intro huv hvr
      by_cases hum : u = m
      · rw [hum]
        exact hasc m (by omega)
      · exact lt_trans (ihv (by omega) (by omega)) (hasc m (by omega))

/-- One level of the degenerate recursion on a strictly ascending prefix:
the pivot is the maximum of the range, the forward cursor runs to `right`,
no swap changes the array, and the recursion continues on `[0, right-1]`. -/
theorem qs_asc_step (M : Nat) (a : List Int) (hlen : M + 2 < a.length)
    (hasc : ∀ k : Nat, k < M + 2 → a.getD k 0 < a.getD (k + 1) 0)
    (a3 : List Int) (f0 : Frame)
    (hrec : quick_sort (M + 3) a 0 ((M + 1 : Nat) : Int) = some (a3, f0)) :
    quick_sort (M + 4) a 0 ((M + 2 : Nat) : Int) =
      some (a3, Frame.node 0 ((M + 2 : Nat) : Int) a ((M + 2 : Nat) : Int) f0
        (Frame.leaf (((M + 2 : Nat) : Int) + 1) ((M + 2 : Nat) : Int))) := by
  have hpv : a.getD ((M + 2 : Nat) : Int).toNat 0 = a.getD (M + 2) 0 := by
    have h2 : ((M + 2 : Nat) : Int).toNat = M + 2 := by omega
    rw [h2]
  have hadv : advance a (a.getD (M + 2) 0) ((M + 2 : Nat) : Int) 0 = ((M + 2 : Nat) : Int) := by
    apply advance_reaches
    · omega
    · intro k hk1 hk2
      have := ascPrefix_lt a (M + 2) hasc k.toNat (M + 2) (by omega) (le_refl _)
      exact this
  have hret : retreat a (a.getD (M + 2) 0) 0 (((M + 2 : Nat) : Int) - 1)
      = ((M + 2 : Nat) : Int) - 1 := by
    apply retreat_stall
    have hidx : (((M + 2 : Nat) : Int) - 1).toNat = M + 1 := by omega
    rw [hidx]
    have := ascPrefix_lt a (M + 2) hasc (M + 1) (M + 2) (by omega) (le_refl _)
    omega
  have hploop : ploop (M + 3 + 1) a (a.getD ((M + 2 : Nat) : Int).toNat 0) 0
      ((M + 2 : Nat) : Int) 0 (((M + 2 : Nat) : Int) - 1)
      = some (a, ((M + 2 : Nat) : Int)) := by
    rw [ploop]
    rw [if_pos (show (0 : Int) < ((M + 2 : Nat) : Int) - 1 by omega)]
    rw [hpv, hadv, hret]
    rw [if_neg (show ¬ ((M + 2 : Nat) : Int) < ((M + 2 : Nat) : Int) - 1 by omega)]
  have hswap : listSwap a ((M + 2 : Nat) : Int).toNat ((M + 2 : Nat) : Int).toNat = a := by
    apply listSwap_self
    omega
  have hcast : ((M + 2 : Nat) : Int) - 1 = ((M + 1 : Nat) : Int) := by omega
  have hleaf : quick_sort (M + 3) a3 (((M + 2 : Nat) : Int) + 1) ((M + 2 : Nat) : Int)
      = some (a3, Frame.leaf (((M + 2 : Nat) : Int) + 1) ((M + 2 : Nat) : Int)) := by
    rw [quick_sort]
    rw [if_pos (show ((M + 2 : Nat) : Int) ≤ ((M + 2 : Nat) : Int) + 1 by omega)]
  rw [quick_sort]
  rw [if_neg (show ¬ ((M + 2 : Nat) : Int) ≤ 0 by omega)]
  rw [hploop]
  simp only [Option.some_bind]
  rw [hswap, hcast, hrec]
  simp only [Option.some_bind]
  rw [hleaf]
  simp only [Option.some_bind]

/-- On a strictly ascending prefix `[0, r]`, `quick_sort` builds the
degenerate chain: fuel `r + 2` suffices and every root-to-leaf path has
`r + 1` frames below any starting depth. -/
theorem qs_asc_depth : ∀ (r : Nat) (a : List Int), r < a.length →
    (∀ k : Nat, k < r → a.getD k 0 < a.getD (k + 1) 0) →
    ∃ x : List Int × Frame, quick_sort (r + 2) a 0 ((r : Nat) : Int) = some x ∧
      ∀ dep : Nat, x.2.max_depth dep = dep + r + 1 := by
  intro r
  induction r with
  | zero =>
      intro a hlen hasc
      exact ⟨(a, Frame.leaf 0 0), rfl, fun dep => rfl⟩
  | succ n ih =>
      intro a hlen hasc
      cases n with
      | zero =>
          refine ⟨(listSwap a 0 1,
            Frame.node 0 1 (listSwap a 0 1) 0 (Frame.leaf 0 (-1)) (Frame.leaf 1 1)),
            ?_, ?_⟩
          · exact rfl
          · intro dep
            simp only [Frame.max_depth, Nat.max_self]
            try omega
      | succ m =>
          have hasc1 : ∀ k : Nat, k < m + 1 → a.getD k 0 < a.getD (k + 1) 0 :=
            fun k hk => hasc k (by omega)
          obtain ⟨x, hqs, hdep⟩ := ih a (by omega) hasc1
          have hrec : quick_sort (m + 3) a 0 ((m + 1 : Nat) : Int) = some (x.1, x.2) := hqs
          have hstep := qs_asc_step m a (by omega) (fun k hk => hasc k (by omega)) x.1 x.2 hrec
          refine ⟨(x.1, Frame.node 0 ((m + 2 : Nat) : Int) a ((m + 2 : Nat) : Int) x.2
            (Frame.leaf (((m + 2 : Nat) : Int) + 1) ((m + 2 : Nat) : Int))), hstep, ?_⟩
          intro dep
          simp only [Frame.max_depth]
          rw [hdep (dep + 1)]
          have hmax : max (dep + 1 + (m + 1) + 1) (dep + 1 + 1) = dep + 1 + (m + 1) + 1 :=
            Nat.max_eq_left (by omega)
          rw [hmax]
          omega

/-- C6, counterexample to the unrestricted claim.  The empty array is
(vacuously) strictly ascending and has length `n = 0`; the call over bounds
`(0, n-1) = (0, -1)` returns a lone leaf whose `max_depth` is `1`, not
`n = 0`. -/
theorem c6_counterexample_empty_array :
    strictAsc [] = true ∧ ([] : List Int).length = 0
    ∧ quick_sort 1 [] 0 ((0 : Int) - 1) = some ([], Frame.leaf 0 ((0 : Int) - 1))
    ∧ Frame.max_depth (Frame.leaf 0 ((0 : Int) - 1)) 0 = 1 ∧ (1 : Nat) ≠ 0 := by
  exact ⟨rfl, rfl, rfl, rfl, by decide⟩

/-- C6, amended to nonempty arrays.  For every strictly ascending array of
length `n ≥ 1`, `quick_sort` over `(0, n-1)` terminates (fuel `n + 1`
suffices) and the returned frame's `max_depth(0)` is exactly `n`. -/
theorem c6_amended_depth_degeneration (n : Nat) (a : List Int) (hn : 1 ≤ n)
    (hlen : a.length = n) (hasc : strictAsc a = true) :
    ∃ x : List Int × Frame, quick_sort (n + 1) a 0 ((n : Int) - 1) = some x ∧
      x.2.max_depth 0 = n := by
  have hasc2 : ∀ k : Nat, k < n - 1 → a.getD k 0 < a.getD (k + 1) 0 := by
    intro k hk
    have hmem : (if k + 1 < a.length then decide (a.getD k 0 < a.getD (k + 1) 0) else true)
        = true := List.all_eq_true.mp hasc k (List.mem_range.mpr (by omega))
    rw [if_pos (by omega : k + 1 < a.length)] at hmem
    exact of_decide_eq_true hmem
  obtain ⟨x, hqs, hdep⟩ := qs_asc_depth (n - 1) a (by omega) hasc2
  have hfuel : n - 1 + 2 = n + 1 := by omega
  have hbound : ((n - 1 : Nat) : Int) = (n : Int) - 1 := by omega
  refine ⟨x, ?_, ?_⟩
  · rw [← hfuel, ← hbound]
    exact hqs
  · have := hdep 0
    omega

/-- Witness for the amended C6 at the spec's own example: `[1,2,3,4,5]` with
bounds `(0, 4)` gives `max_depth = 5`. -/
theorem c6_witness :
    ∃ x : List Int × Frame, quick_sort 6 [1, 2, 3, 4, 5] 0 ((5 : Int) - 1) = some x ∧
      x.2.max_depth 0 = 5 :=
  c6_amended_depth_degeneration 5 [1, 2, 3, 4, 5] (by decide) (by rfl) (by rfl)
